import Mathlib

/-!
Verification of the text-search engine in `csv_text_search.py`.

The engine is shallowly embedded over `List Char`.  Texts, query terms,
identifiers and language codes are lists of characters; Python's
`str.lower`, `str.split`, `str.strip` and the `re` word-boundary matching
used by the engine are modelled by executable Lean functions.  The model
is restricted to ASCII text (the witnesses only use ASCII), matching
Python's behaviour on that fragment.
-/

set_option maxHeartbeats 1000000

namespace CsvTextSearch

/-- Convert a string literal to the character-list representation used by the model. -/
def ofStr (s : String) : List Char := s.data

/-- ASCII lower-casing of one character, modelling Python `str.lower` on ASCII. -/
def lowerC (c : Char) : Char :=
  if 'A' ≤ c ∧ c ≤ 'Z' then Char.ofNat (c.toNat + 32) else c

/-- Lower-casing of a text, modelling Python `str.lower` on ASCII. -/
def lowerL (l : List Char) : List Char := l.map lowerC

/-- Whitespace characters recognised by Python `str.split` / `str.strip`. -/
def isWsC (c : Char) : Bool :=
  (c == ' ') || (c == '\t') || (c == '\n') || (c == '\r') || (c == '\x0b') || (c == '\x0c')

/-- Word characters of the regex class `\w` (ASCII fragment): alphanumeric or underscore. -/
def isWordC (c : Char) : Bool := c.isAlphanum || (c == '_')

/-- Whether the head of a list exists and is not whitespace. -/
def headNonWs : List Char → Bool
  | [] => false
  | d :: _ => !isWsC d

/-- Whitespace tokenisation, modelling Python `text.split()`: maximal runs of
non-whitespace characters, with no empty tokens. -/
def tks : List Char → List (List Char)
  | [] => []
  | c :: cs =>
    if isWsC c then tks cs
    else if headNonWs cs then
      match tks cs with
      | [] => [c] :: []
      | t :: ts => (c :: t) :: ts
    else [c] :: tks cs

/-- Strip leading and trailing whitespace, modelling Python `str.strip()`. -/
def strip (l : List Char) : List Char :=
  ((l.dropWhile (fun c => isWsC c)).reverse.dropWhile (fun c => isWsC c)).reverse

/-- Nth character of a text, `none` when out of range. -/
def nthC : List Char → Nat → Option Char
  | [], _ => none
  | c :: _, 0 => some c
  | _ :: l, n + 1 => nthC l n

/-- Word-character test on an optional character; positions outside the text count
as non-word, as in Python's `re`. -/
def isWordO : Option Char → Bool
  | none => false
  | some c => isWordC c

/-- Word-character status of the position preceding `p`; the position before
the start of the text counts as non-word. -/
def prevWordB (l : List Char) : Nat → Bool
  | 0 => false
  | q + 1 => isWordO (nthC l q)

/-- The regex word-boundary assertion of `\b` at position `p` of text `l`:
the word-character status changes between position `p - 1` and position `p`. -/
def boundaryAt (l : List Char) (p : Nat) : Bool :=
  prevWordB l p != isWordO (nthC l p)

/-- Literal match: the text `l` contains the literal `lit` starting at position `p`. -/
def litAt (l lit : List Char) (p : Nat) : Bool :=
  decide ((l.drop p).take lit.length = lit)

/-- Match of the pattern built by the engine, `\b` + `re.escape(term)` + `\b`,
at position `p`: the escaped term matches exactly the literal characters of the
term, guarded by word boundaries on both sides. -/
def patMatchAt (l lit : List Char) (p : Nat) : Bool :=
  litAt l lit p && boundaryAt l p && boundaryAt l (p + lit.length)

/-- Existence of a match of the word-boundary pattern anywhere in `l`,
modelling `re.search(pattern, l)` truthiness. -/
def searchLit (l lit : List Char) : Bool :=
  (List.range (l.length + 1)).any (fun p => patMatchAt l lit p)

/-- Fuelled left-to-right scan for non-overlapping matches starting at position `p`,
modelling `re.finditer`: after a match the scan resumes past the matched text. -/
def findFromF (l lit : List Char) : Nat → Nat → List Nat
  | 0, _ => []
  | fuel + 1, p =>
    if p > l.length then []
    else if patMatchAt l lit p then p :: findFromF l lit fuel (p + max 1 lit.length)
    else findFromF l lit fuel (p + 1)

/-- Start positions of all non-overlapping matches of the word-boundary pattern,
modelling `list(re.finditer(pattern, text))`. -/
def findMatches (l lit : List Char) : List Nat := findFromF l lit (l.length + 1) 0

/-- The literal characters the escaped pattern of a query matches:
`re.escape(query.lower())` matches exactly `query.lower()`. -/
def litOf (q : List Char) : List Char := lowerL q

/-- Join a list of pieces with a separator, modelling Python `sep.join(pieces)`. -/
def joinSep (sep : List Char) : List (List Char) → List Char
  | [] => []
  | [x] => x
  | x :: y :: t => x ++ sep ++ joinSep sep (y :: t)

/-- The fixed separator placed between several contexts. -/
def sepBar : List Char := ofStr " | "

/-- The ellipsis marker added at a truncated window edge. -/
def dots : List Char := ofStr "..."

/-- Emphasis wrapping of a highlighted word, modelling the f-string interpolation
that surrounds the word with a double asterisk on each side. -/
def emphL (w : List Char) : List Char := ofStr "**" ++ w ++ ofStr "**"

/-- Decidable substring test: `isSub pat l` holds iff `pat` occurs contiguously in `l`. -/
def isPre : List Char → List Char → Bool
  | [], _ => true
  | _ :: _, [] => false
  | a :: ps, b :: l => a == b && isPre ps l

/-- Substring occurrence test over all suffixes. -/
def isSub (pat : List Char) : List Char → Bool
  | [] => isPre pat []
  | c :: t => isPre pat (c :: t) || isSub pat t

/-- The 0-based word index the engine assigns to a match starting at character
position `p`: `len(text[:char_pos].split()) - 1`, with Nat subtraction modelling
the `max(0, ...)` clamp of the source. -/
def wordPosOf (text : List Char) (p : Nat) : Nat :=
  (tks (List.take p text)).length - 1

/-- Start index of the context window: `max(0, word_pos - context_words)`. -/
def startIdx (wp r : Nat) : Nat := wp - r

/-- End index (exclusive) of the context window:
`min(len(words), word_pos + context_words + 1)`. -/
def endIdx (len wp r : Nat) : Nat := min len (wp + r + 1)

/-- The window of words `words[start_idx:end_idx]` around the match at position `p`. -/
def windowAt (text : List Char) (r p : Nat) : List (List Char) :=
  let ws := tks text
  let wp := wordPosOf text p
  (ws.drop (startIdx wp r)).take (endIdx ws.length wp r - startIdx wp r)

/-- Highlighting of one window word: wrapped in emphasis markers when the word
itself (lower-cased) matches the word-boundary pattern. -/
def highlightW (L w : List Char) : List Char :=
  if searchLit (lowerL w) L then emphL w else w

/-- The space-joined highlighted window of the occurrence at position `p`. -/
def coreAt (text L : List Char) (r p : Nat) : List Char :=
  joinSep [' '] ((windowAt text r p).map (highlightW L))

/-- The context string of one occurrence: the highlighted window, prefixed by an
ellipsis when the window does not start at word 0 and suffixed by an ellipsis
when it does not reach the final word. -/
def occContext (text L : List Char) (r p : Nat) : List Char :=
  let ws := tks text
  let wp := wordPosOf text p
  let ctx1 := coreAt text L r p
  let ctx2 := if 0 < startIdx wp r then dots ++ ctx1 else ctx1
  if endIdx ws.length wp r < ws.length then ctx2 ++ dots else ctx2

/-- Model of `TextSearcher.get_context`: all occurrence contexts joined by the
fixed separator, or the empty string when the pattern has no match. -/
def get_context (text q : List Char) (r : Nat) : List Char :=
  let ms := findMatches (lowerL text) (litOf q)
  if ms = [] then []
  else joinSep sepBar (ms.map (fun p => occContext text (litOf q) r p))

/-- One row of the full dataset (`df_all`): the columns the engine reads.
The descriptive columns not consulted by any search operation are omitted. -/
structure DataRow where
  itemid : List Char
  languageisocode : List Char
deriving DecidableEq

/-- One row of the law-text table: the join key and the law-text field,
which may be missing (`NaN`). -/
structure LawRow where
  itemid : List Char
  the_law : Option (List Char)
deriving DecidableEq

/-- One row of the assembled corpus (`self.dataset`): a dataset row enriched
with the law-text field obtained by the merge. -/
structure CorpusRow where
  itemid : List Char
  languageisocode : List Char
  the_law : Option (List Char)
deriving DecidableEq

/-- Left merge of the full dataset onto the law-text table on `itemid`,
modelling `df_all.merge(law, how='left', on='itemid')`: every dataset row is
kept; it is paired with each law row sharing its identifier, or with a missing
law-text field when no law row matches. -/
def mergeLeft (dfAll : List DataRow) (law : List LawRow) : List CorpusRow :=
  dfAll.flatMap (fun d =>
    match law.filter (fun l => decide (l.itemid = d.itemid)) with
    | [] => [⟨d.itemid, d.languageisocode, none⟩]
    | l0 :: ls => (l0 :: ls).map (fun l => ⟨d.itemid, d.languageisocode, l.the_law⟩))

/-- Corpus assembly of `TextSearcher.__init__`: the left merge filtered to rows
whose law-text field is present, modelling `merged.loc[~pd.isna(merged['THE_LAW'])]`. -/
def assembleCorpus (dfAll : List DataRow) (law : List LawRow) : List CorpusRow :=
  (mergeLeft dfAll law).filter (fun row => row.the_law.isSome)

/-- One match record emitted by `search_text`, mirroring the result dict keys. -/
structure MatchRecord where
  itemid : List Char
  language : List Char
  query_word : List Char
  context : List Char
  the_law : List Char
deriving DecidableEq

/-- The language-filter step of `search_text`: with a filter string that is
neither `None` nor empty (Python truthiness), keep the rows whose language code
equals the filter case-insensitively. -/
def filterLang (ds : List CorpusRow) : Option (List Char) → List CorpusRow
  | none => ds
  | some f =>
    if f = [] then ds
    else ds.filter (fun row => decide (lowerL row.languageisocode = lowerL f))

/-- Model of `TextSearcher.search_text`: optional case-insensitive language
filter, then one match record per row whose lower-cased law text matches the
word-boundary pattern of the escaped query; rows with a missing text are skipped. -/
def search_text (ds : List CorpusRow) (q : List Char) (lf : Option (List Char)) (r : Nat) :
    List MatchRecord :=
  (filterLang ds lf).filterMap (fun row =>
    match row.the_law with
    | none => none
    | some ft =>
      if searchLit (lowerL ft) (litOf q) then
        some ⟨row.itemid, row.languageisocode, q, get_context ft q r, ft⟩
      else none)

/-- The query table: column headers and rows of optional cell values. -/
structure QueriesTable where
  cols : List (List Char)
  rows : List (List (Option (List Char)))
deriving DecidableEq

/-- Column headers recognised (case-insensitively) as language columns. -/
def recognizedNames : List (List Char) :=
  [ofStr "english", ofStr "french", ofStr "en", ofStr "fr"]

/-- Column headers mapped to the English language filter. -/
def englishNames : List (List Char) := [ofStr "english", ofStr "en"]

/-- Column headers mapped to the French language filter. -/
def frenchNames : List (List Char) := [ofStr "french", ofStr "fr"]

/-- Selection of the query columns to search: the recognised language columns,
or every column when none is recognised; each column keeps its index. -/
def selectCols (cols : List (List Char)) : List (Nat × List Char) :=
  let wi := cols.enum
  let sel := wi.filter (fun p => decide (lowerL p.2 ∈ recognizedNames))
  if sel = [] then wi else sel

/-- The language filter derived from a query-column name. -/
def langFilterOf (cname : List Char) : Option (List Char) :=
  if lowerL cname ∈ englishNames then some (ofStr "eng")
  else if lowerL cname ∈ frenchNames then some (ofStr "fre")
  else none

/-- A match record tagged with the originating query-column name
(`result['query_language'] = col`). -/
structure AggRecord where
  mrec : MatchRecord
  query_language : List Char
deriving DecidableEq

/-- All match records collected by `search_all_queries` before grouping: for
every query row and selected column, missing and empty-after-strip cells are
skipped, the column's language filter is applied, and every match record is
tagged with the column name. -/
def collectResults (ds : List CorpusRow) (qt : QueriesTable) (r : Nat) : List AggRecord :=
  qt.rows.flatMap (fun row =>
    (selectCols qt.cols).flatMap (fun ic =>
      match row.getD ic.1 none with
      | none => []
      | some cell =>
        let q := strip cell
        if q = [] then []
        else (search_text ds q (langFilterOf ic.2) r).map (fun m => ⟨m, ic.2⟩)))

/-- The grouping key of the aggregation: `(itemid, query_word)`. -/
def groupKey (a : AggRecord) : List Char × List Char := (a.mrec.itemid, a.mrec.query_word)

/-- First-occurrence deduplication, modelling the set of distinct group keys. -/
def dedupAux [DecidableEq α] : List α → List α → List α
  | [], _ => []
  | a :: l, seen => if a ∈ seen then dedupAux l seen else a :: dedupAux l (a :: seen)

/-- The distinct elements of a list, first occurrences kept. -/
def dedupF [DecidableEq α] (l : List α) : List α := dedupAux l []

/-- One summary record of the aggregation output. -/
structure SummaryRecord where
  itemid : List Char
  language : List Char
  query_word : List Char
  query_language : List Char
  combined_context : List Char
  match_count : Nat
  the_law : List Char
deriving DecidableEq

/-- The group of collected match records sharing the key `k`. -/
def groupOf (res : List AggRecord) (k : List Char × List Char) : List AggRecord :=
  res.filter (fun a => decide (groupKey a = k))

/-- The summary record built from the group of key `k`: representative metadata
from the group's first member, the non-empty contexts joined by the separator,
and the group's size as `match_count`. -/
def mkSummary (res : List AggRecord) (k : List Char × List Char) : SummaryRecord :=
  match groupOf res k with
  | [] => ⟨k.1, [], k.2, [], [], 0, []⟩
  | a :: _ =>
    ⟨k.1, a.mrec.language, k.2, a.query_language,
     joinSep sepBar (((groupOf res k).map (fun x => x.mrec.context)).filter (fun c => decide (c ≠ []))),
     (groupOf res k).length, a.mrec.the_law⟩

/-- Model of `TextSearcher.search_all_queries`: the empty result set when no
match record was produced, otherwise one summary record per distinct
`(itemid, query_word)` key of the collected match records.  (pandas emits the
groups in sorted key order; the model emits them in first-occurrence order,
which no claim distinguishes.) -/
def search_all_queries (ds : List CorpusRow) (qt : QueriesTable) (r : Nat) :
    List SummaryRecord :=
  let res := collectResults ds qt r
  if res = [] then []
  else (dedupF (res.map groupKey)).map (fun k => mkSummary res k)

/-- The mutable state of a `TextSearcher` instance relevant to searching. -/
structure TextSearcherState where
  dataset : List CorpusRow
  queries : QueriesTable
deriving DecidableEq

/-- The `search_text` method as a state transformer: the body works on
`self.dataset.copy()` and never assigns to `self`, so the state component of
the result is the incoming state. -/
def search_text_method (s : TextSearcherState) (q : List Char) (lf : Option (List Char))
    (r : Nat) : TextSearcherState × List MatchRecord :=
  let search_data := s.dataset
  (s, search_text search_data q lf r)

/-- Match of the regex `\b(A)?B\b` at position `p`, for literals `A` and `B`:
a word boundary, then either `A ++ B` or `B`, then a word boundary.  This is
the unescaped regex semantics of an optional-group query term such as
`"(moyens de)? subsistance"`. -/
def optSeqMatchAt (l optLit restLit : List Char) (p : Nat) : Bool :=
  boundaryAt l p &&
    ((litAt l (optLit ++ restLit) p && boundaryAt l (p + (optLit ++ restLit).length)) ||
     (litAt l restLit p && boundaryAt l (p + restLit.length)))

/-- Existence of a match of `\b(A)?B\b` anywhere in `l`. -/
def optSeqSearch (l optLit restLit : List Char) : Bool :=
  (List.range (l.length + 1)).any (fun p => optSeqMatchAt l optLit restLit p)

/-! ### Lemmas about the whitespace tokeniser -/

lemma tks_nil : tks ([] : List Char) = [] := rfl

lemma headNonWs_nil : headNonWs [] = false := rfl

lemma headNonWs_cons (d : Char) (l : List Char) : headNonWs (d :: l) = !isWsC d := rfl

lemma tks_cons_eq (c : Char) (cs : List Char) :
    tks (c :: cs) =
      if isWsC c then tks cs
      else if headNonWs cs then
        match tks cs with
        | [] => [c] :: []
        | t :: ts => (c :: t) :: ts
      else [c] :: tks cs := rfl

lemma tks_cons_ws (c : Char) (cs : List Char) (h : isWsC c = true) :
    tks (c :: cs) = tks cs := by
  rw [tks_cons_eq, if_pos h]

lemma tks_cons_ne_nil (c : Char) (cs : List Char) (h : isWsC c = false) :
    tks (c :: cs) ≠ [] := by
  rw [tks_cons_eq, if_neg (by simp [h])]
  by_cases h2 : headNonWs cs = true
  · rw [if_pos h2]
    cases htk : tks cs with
    | nil => simp
    | cons t ts => simp
  · rw [if_neg h2]
    simp

lemma tks_length_cons (c : Char) (cs : List Char) (h : isWsC c = false) :
    (tks (c :: cs)).length =
      if headNonWs cs then (tks cs).length else (tks cs).length + 1 := by
  rw [tks_cons_eq, if_neg (by simp [h])]
  by_cases h2 : headNonWs cs = true
  · rw [if_pos h2, if_pos h2]
    cases cs with
    | nil => simp [headNonWs] at h2
    | cons d cs' =>
      have hd : isWsC d = false := by simpa [headNonWs] using h2
      have hne := tks_cons_ne_nil d cs' hd
      cases htk : tks (d :: cs') with
      | nil => exact absurd htk hne
      | cons t ts => simp
  · rw [if_neg h2, if_neg h2]
    simp

lemma tks_take_length_le (l : List Char) :
    ∀ n, (tks (List.take n l)).length ≤ (tks l).length := by
  induction l with
  | nil => intro n; simp
  | cons c cs ih =>
    intro n
    cases n with
    | zero => simp [tks]
    | succ m =>
      simp only [List.take_succ_cons]
      by_cases hc : isWsC c = true
      · rw [tks_cons_ws c _ hc, tks_cons_ws c _ hc]; exact ih m
      · have hc' : isWsC c = false := by simpa using hc
        rw [tks_length_cons c _ hc', tks_length_cons c _ hc']
        cases cs with
        | nil => simp
        | cons d cs' =>
          cases m with
          | zero =>
            simp only [List.take_zero, headNonWs_nil, Bool.false_eq_true, if_false, tks_nil,
              List.length_nil, headNonWs_cons]
            by_cases hd : isWsC d = true
            · simp only [hd, Bool.not_true, Bool.false_eq_true, if_false]
              omega
            · have hd' : isWsC d = false := by simpa using hd
              have hpos : 0 < (tks (d :: cs')).length :=
                List.length_pos.mpr (tks_cons_ne_nil d cs' hd')
              simp only [hd', Bool.not_false, if_true]
              omega
          | succ k =>
            have ihm := ih (k + 1)
            simp only [List.take_succ_cons] at ihm ⊢
            simp only [headNonWs]
            by_cases hd : isWsC d = true
            · simp only [hd, Bool.not_true, Bool.false_eq_true, if_false]
              omega
            · have hd' : isWsC d = false := by simpa using hd
              simp only [hd', Bool.not_false, if_true]
              omega

lemma tks_mem_ne_nil (l : List Char) : ∀ w ∈ tks l, w ≠ [] := by
  induction l with
  | nil => simp [tks]
  | cons c cs ih =>
    intro w hw
    by_cases hc : isWsC c = true
    · rw [tks_cons_ws c cs hc] at hw; exact ih w hw
    · have hc' : isWsC c = false := by simpa using hc
      rw [tks_cons_eq, if_neg (by simp [hc'])] at hw
      by_cases h2 : headNonWs cs = true
      · rw [if_pos h2] at hw
        cases htk : tks cs with
        | nil =>
          rw [htk] at hw
          simp only [List.mem_singleton] at hw
          subst hw; simp
        | cons t ts =>
          rw [htk] at hw
          simp only [List.mem_cons] at hw
          rcases hw with h | h
          · subst h; simp
          · exact ih w (by rw [htk]; exact List.mem_cons_of_mem t h)
      · rw [if_neg h2] at hw
        rcases List.mem_cons.mp hw with h | h
        · subst h; simp
        · exact ih w h

lemma tks_ne_nil_of_mem_nonws {l : List Char} {c : Char} (hc : c ∈ l)
    (hw : isWsC c = false) : tks l ≠ [] := by
  induction l with
  | nil => cases hc
  | cons a t ih =>
    by_cases ha : isWsC a = true
    · rw [tks_cons_ws a t ha]
      rcases List.mem_cons.mp hc with h | h
      · subst h; rw [hw] at ha; cases ha
      · exact ih h
    · exact tks_cons_ne_nil a t (by simpa using ha)

/-! ### Lemmas about characters and word boundaries -/

lemma isWs_cases {c : Char} (h : isWsC c = true) :
    c = ' ' ∨ c = '\t' ∨ c = '\n' ∨ c = '\r' ∨ c = '\x0b' ∨ c = '\x0c' := by
  simp only [isWsC, Bool.or_eq_true, beq_iff_eq] at h
  tauto

lemma isWs_lowerC {c : Char} (h : isWsC c = true) : isWsC (lowerC c) = true := by
  rcases isWs_cases h with h | h | h | h | h | h <;> subst h <;> decide

lemma isWordC_not_ws {c : Char} (h : isWordC c = true) : isWsC c = false := by
  by_contra hne
  have hws : isWsC c = true := by simpa using hne
  rcases isWs_cases hws with h1 | h1 | h1 | h1 | h1 | h1 <;> subst h1 <;>
    exact absurd h (by decide)

lemma nthC_mem {l : List Char} : ∀ {p : Nat} {c : Char}, nthC l p = some c → c ∈ l := by
  induction l with
  | nil => intro p c h; simp [nthC] at h
  | cons a l' ih =>
    intro p c h
    cases p with
    | zero =>
      simp only [nthC, Option.some.injEq] at h
      subst h; exact List.mem_cons_self a l'
    | succ q =>
      simp only [nthC] at h
      exact List.mem_cons_of_mem a (ih h)

lemma boundaryAt_exists_word {l : List Char} {p : Nat} (h : boundaryAt l p = true) :
    ∃ c ∈ l, isWordC c = true := by
  unfold boundaryAt at h
  rw [bne_iff_ne] at h
  by_cases hY : isWordO (nthC l p) = true
  · cases hnth : nthC l p with
    | none => rw [hnth] at hY; simp [isWordO] at hY
    | some c =>
      refine ⟨c, nthC_mem hnth, ?_⟩
      rw [hnth] at hY
      simpa [isWordO] using hY
  · have hY' : isWordO (nthC l p) = false := by simpa using hY
    rw [hY'] at h
    have hX : prevWordB l p = true := by simpa using h
    cases p with
    | zero => simp [prevWordB] at hX
    | succ q =>
      simp only [prevWordB] at hX
      cases hnth : nthC l q with
      | none => rw [hnth] at hX; simp [isWordO] at hX
      | some c =>
        refine ⟨c, nthC_mem hnth, ?_⟩
        rw [hnth] at hX
        simpa [isWordO] using hX

/-! ### Lemmas about the match scanner -/

lemma findFromF_mem {l lit : List Char} : ∀ (fuel p q : Nat),
    q ∈ findFromF l lit fuel p → patMatchAt l lit q = true ∧ q ≤ l.length := by
  intro fuel
  induction fuel with
  | zero => intro p q h; simp [findFromF] at h
  | succ f ih =>
    intro p q h
    simp only [findFromF] at h
    split at h
    · simp at h
    · rename_i hp
      split at h
      · rename_i hm
        rcases List.mem_cons.mp h with h1 | h1
        · subst h1; exact ⟨hm, by omega⟩
        · exact ih _ q h1
      · exact ih _ q h

lemma findFromF_eq_nil {l lit : List Char} : ∀ (fuel p : Nat),
    findFromF l lit fuel p = [] →
    ∀ j, p ≤ j → j < p + fuel → j ≤ l.length → patMatchAt l lit j = false := by
  intro fuel
  induction fuel with
  | zero => intro p _ j h1 h2 _; omega
  | succ f ih =>
    intro p h j h1 h2 h3
    simp only [findFromF] at h
    split at h
    · rename_i hp; omega
    · rename_i hp
      split at h
      · simp at h
      · rename_i hm
        rcases Nat.eq_or_lt_of_le h1 with he | hl
        · subst he; simpa using hm
        · exact ih (p + 1) h j (by omega) (by omega) h3

lemma searchLit_iff_findMatches {l lit : List Char} :
    searchLit l lit = true ↔ findMatches l lit ≠ [] := by
  constructor
  · intro h hnil
    rcases List.any_eq_true.mp h with ⟨p, hp, hm⟩
    have hp' : p ≤ l.length := by
      have := List.mem_range.mp hp; omega
    have := findFromF_eq_nil (l.length + 1) 0 hnil p (Nat.zero_le p) (by omega) hp'
    rw [hm] at this
    cases this
  · intro h
    rcases List.exists_mem_of_ne_nil _ h with ⟨q, hq⟩
    obtain ⟨hm, hle⟩ := findFromF_mem (l.length + 1) 0 q hq
    exact List.any_eq_true.mpr ⟨q, List.mem_range.mpr (by omega), hm⟩

/-! ### Consequences for a text with at least one match -/

lemma tks_ne_nil_of_findMatches {text lit : List Char}
    (h : findMatches (lowerL text) lit ≠ []) : tks text ≠ [] := by
  rcases List.exists_mem_of_ne_nil _ h with ⟨q, hq⟩
  obtain ⟨hm, -⟩ := findFromF_mem ((lowerL text).length + 1) 0 q hq
  simp only [patMatchAt, Bool.and_eq_true] at hm
  rcases boundaryAt_exists_word hm.1.2 with ⟨ch, hmem, hword⟩
  rcases List.mem_map.mp hmem with ⟨c0, hc0, hlow⟩
  have hnw : isWsC c0 = false := by
    by_contra hx
    have hx' : isWsC c0 = true := by simpa using hx
    have hws := isWs_lowerC hx'
    rw [hlow] at hws
    rw [isWordC_not_ws hword] at hws
    cases hws
  exact tks_ne_nil_of_mem_nonws hc0 hnw

lemma wordPosOf_lt {text : List Char} (p : Nat) (h : tks text ≠ []) :
    wordPosOf text p < (tks text).length := by
  have h1 := tks_take_length_le text p
  have h2 : 0 < (tks text).length := List.length_pos.mpr h
  unfold wordPosOf
  omega

lemma windowAt_ne_nil {text : List Char} (r p : Nat) (h : tks text ≠ []) :
    windowAt text r p ≠ [] := by
  have hwp := wordPosOf_lt p h
  unfold windowAt startIdx endIdx
  intro hcon
  have hlen := congrArg List.length hcon
  simp only [List.length_take, List.length_drop, List.length_nil] at hlen
  omega

lemma windowAt_subset {text : List Char} {r p : Nat} {w : List Char}
    (h : w ∈ windowAt text r p) : w ∈ tks text := by
  unfold windowAt at h
  exact List.drop_subset _ _ (List.take_subset _ _ h)

/-! ### Lemmas about joining and substrings -/

lemma joinSep_ne_nil {sep : List Char} : ∀ (xs : List (List Char)), xs ≠ [] →
    (∀ x ∈ xs, x ≠ []) → joinSep sep xs ≠ [] := by
  intro xs
  induction xs with
  | nil => intro h; cases h rfl
  | cons x t ih =>
    intro _ hall
    cases t with
    | nil => simpa [joinSep] using hall x (by simp)
    | cons y t' =>
      simp only [joinSep, ne_eq, List.append_eq_nil]
      intro hcon
      exact hall x (by simp) hcon.1.1

lemma joinSep_mem_split (sep : List Char) {x : List Char} :
    ∀ {xs : List (List Char)}, x ∈ xs → ∃ u v, joinSep sep xs = u ++ x ++ v := by
  intro xs
  induction xs with
  | nil => intro h; cases h
  | cons a t ih =>
    intro hx
    cases t with
    | nil =>
      have hxa : x = a := by simpa using hx
      subst hxa
      exact ⟨[], [], by simp [joinSep]⟩
    | cons b t' =>
      rcases List.mem_cons.mp hx with h | h
      · subst h
        exact ⟨[], sep ++ joinSep sep (b :: t'), by simp [joinSep]⟩
      · rcases ih h with ⟨u, v, huv⟩
        exact ⟨a ++ sep ++ u, v, by simp [joinSep, huv]⟩

lemma isPre_iff {p l : List Char} : isPre p l = true ↔ ∃ t, l = p ++ t := by
  induction p generalizing l with
  | nil => simp [isPre]
  | cons a ps ih =>
    cases l with
    | nil => simp [isPre]
    | cons b l' =>
      simp only [isPre, Bool.and_eq_true, beq_iff_eq]
      constructor
      · rintro ⟨rfl, h⟩
        rcases ih.mp h with ⟨t, rfl⟩
        exact ⟨t, rfl⟩
      · rintro ⟨t, ht⟩
        injection ht with h1 h2
        exact ⟨h1.symm, ih.mpr ⟨t, h2⟩⟩

lemma isSub_iff {pat l : List Char} : isSub pat l = true ↔ ∃ u v, l = u ++ pat ++ v := by
  induction l with
  | nil =>
    simp only [isSub]
    rw [isPre_iff]
    constructor
    · rintro ⟨t, ht⟩
      exact ⟨[], t, by simpa using ht⟩
    · rintro ⟨u, v, huv⟩
      have h0 : u = [] ∧ pat = [] ∧ v = [] := by simpa using huv.symm
      exact ⟨[], by simp [h0.2.1]⟩
  | cons c t ih =>
    simp only [isSub, Bool.or_eq_true]
    rw [isPre_iff, ih]
    constructor
    · rintro (⟨u, hu⟩ | ⟨u, v, huv⟩)
      · exact ⟨[], u, by simpa using hu⟩
      · exact ⟨c :: u, v, by simp [huv]⟩
    · rintro ⟨u, v, huv⟩
      cases u with
      | nil => exact Or.inl ⟨v, by simpa using huv⟩
      | cons a u' =>
        injection huv with h1 h2
        exact Or.inr ⟨u', v, h2⟩

/-! ### Lemmas about deduplication and counting -/

lemma mem_dedupAux [DecidableEq α] {x : α} : ∀ (l seen : List α),
    x ∈ dedupAux l seen ↔ x ∈ l ∧ x ∉ seen := by
  intro l
  induction l with
  | nil => intro seen; simp [dedupAux]
  | cons a t ih =>
    intro seen
    by_cases ha : a ∈ seen
    · rw [dedupAux, if_pos ha, ih seen]
      constructor
      · rintro ⟨h1, h2⟩; exact ⟨List.mem_cons_of_mem a h1, h2⟩
      · rintro ⟨h1, h2⟩
        rcases List.mem_cons.mp h1 with rfl | h1
        · exact absurd ha h2
        · exact ⟨h1, h2⟩
    · rw [dedupAux, if_neg ha]
      simp only [List.mem_cons]
      rw [ih (a :: seen)]
      simp only [List.mem_cons]
      constructor
      · rintro (rfl | ⟨h1, h2⟩)
        · exact ⟨Or.inl rfl, ha⟩
        · exact ⟨Or.inr h1, fun hx => h2 (Or.inr hx)⟩
      · rintro ⟨h1, h2⟩
        rcases h1 with rfl | h1
        · exact Or.inl rfl
        · by_cases hxa : x = a
          · exact Or.inl hxa
          · exact Or.inr ⟨h1, fun hx => by
              rcases hx with hx | hx
              · exact hxa hx
              · exact h2 hx⟩

lemma nodup_dedupAux [DecidableEq α] : ∀ (l seen : List α), (dedupAux l seen).Nodup := by
  intro l
  induction l with
  | nil => intro seen; simp [dedupAux]
  | cons a t ih =>
    intro seen
    by_cases ha : a ∈ seen
    · rw [dedupAux, if_pos ha]; exact ih seen
    · rw [dedupAux, if_neg ha]
      refine List.nodup_cons.mpr ⟨?_, ih (a :: seen)⟩
      intro hmem
      exact ((mem_dedupAux t (a :: seen)).mp hmem).2 (List.mem_cons_self a seen)

lemma mem_dedupF [DecidableEq α] {x : α} {l : List α} : x ∈ dedupF l ↔ x ∈ l := by
  unfold dedupF
  rw [mem_dedupAux]
  simp

lemma nodup_dedupF [DecidableEq α] (l : List α) : (dedupF l).Nodup := nodup_dedupAux l []

lemma countP_eq_one_of_nodup_mem [DecidableEq α] {l : List α} {a : α}
    (h1 : l.Nodup) (h2 : a ∈ l) :
    l.countP (fun x => decide (x = a)) = 1 := by
  induction l with
  | nil => cases h2
  | cons b t ih =>
    rcases List.nodup_cons.mp h1 with ⟨hb, ht⟩
    rcases List.mem_cons.mp h2 with rfl | h2'
    · rw [List.countP_cons_of_pos _ _ (by simp)]
      have hz : t.countP (fun x => decide (x = a)) = 0 := by
        rw [List.countP_eq_zero]
        intro x hx
        simp only [decide_eq_true_eq]
        rintro rfl
        exact hb hx
      omega
    · have hba : (fun x => decide (x = a)) b = false := by
        simp only [decide_eq_false_iff_not]
        rintro rfl
        exact hb h2'
      rw [List.countP_cons_of_neg _ _ (by simp [hba])]
      exact ih ht h2'

/-! ### Lemmas about the summary construction -/

lemma mkSummary_key (res : List AggRecord) (k : List Char × List Char) :
    (mkSummary res k).itemid = k.1 ∧ (mkSummary res k).query_word = k.2 := by
  unfold mkSummary
  cases h : groupOf res k with
  | nil => simp
  | cons a t => simp

lemma mkSummary_count (res : List AggRecord) (k : List Char × List Char) :
    (mkSummary res k).match_count = (groupOf res k).length := by
  unfold mkSummary
  cases h : groupOf res k with
  | nil => simp
  | cons a t => simp

lemma mkSummary_context (res : List AggRecord) (k : List Char × List Char) :
    (mkSummary res k).combined_context =
      joinSep sepBar (((groupOf res k).map (fun x => x.mrec.context)).filter
        (fun c => decide (c ≠ []))) := by
  unfold mkSummary
  cases h : groupOf res k with
  | nil => simp [joinSep]
  | cons a t => simp

/-! ### Lemmas about the context extractor -/

lemma occContext_decomp (text L : List Char) (r p : Nat) :
    occContext text L r p =
      (if 0 < startIdx (wordPosOf text p) r then dots else []) ++ coreAt text L r p ++
      (if endIdx (tks text).length (wordPosOf text p) r < (tks text).length then dots
       else []) := by
  unfold occContext
  by_cases h1 : 0 < startIdx (wordPosOf text p) r <;>
    by_cases h2 : endIdx (tks text).length (wordPosOf text p) r < (tks text).length <;>
      simp [h1, h2, List.append_assoc]

lemma emphL_ne_nil (w : List Char) : emphL w ≠ [] := by
  simp [emphL, ofStr]

lemma occContext_ne_nil {text : List Char} (L : List Char) (r p : Nat)
    (h : tks text ≠ []) : occContext text L r p ≠ [] := by
  have hcore : coreAt text L r p ≠ [] := by
    unfold coreAt
    apply joinSep_ne_nil
    · simpa using windowAt_ne_nil r p h
    · intro x hx
      rcases List.mem_map.mp hx with ⟨w, hw, rfl⟩
      have hwne := tks_mem_ne_nil text w (windowAt_subset hw)
      unfold highlightW
      split
      · exact emphL_ne_nil w
      · exact hwne
  rw [occContext_decomp]
  simp only [ne_eq, List.append_eq_nil]
  tauto

lemma get_context_eq {text q : List Char} (r : Nat)
    (h : findMatches (lowerL text) (litOf q) ≠ []) :
    get_context text q r =
      joinSep sepBar ((findMatches (lowerL text) (litOf q)).map
        (fun p => occContext text (litOf q) r p)) := by
  unfold get_context
  simp [h]

lemma get_context_ne_nil {text q : List Char} (r : Nat)
    (h : findMatches (lowerL text) (litOf q) ≠ []) :
    get_context text q r ≠ [] := by
  rw [get_context_eq r h]
  have htks := tks_ne_nil_of_findMatches h
  apply joinSep_ne_nil
  · simpa using h
  · intro x hx
    rcases List.mem_map.mp hx with ⟨p, hp, rfl⟩
    exact occContext_ne_nil _ r p htks

lemma get_context_empty_iff {text q : List Char} (r : Nat) :
    get_context text q r = [] ↔ searchLit (lowerL text) (litOf q) = false := by
  constructor
  · intro h
    by_contra hs
    have hs' : searchLit (lowerL text) (litOf q) = true := by simpa using hs
    exact get_context_ne_nil r (searchLit_iff_findMatches.mp hs') h
  · intro h
    have hnil : findMatches (lowerL text) (litOf q) = [] := by
      by_contra hne
      rw [searchLit_iff_findMatches.mpr hne] at h
      cases h
    unfold get_context
    simp [hnil]

/-! ### Lemmas about the corpus assembly and the search -/

lemma mem_mergeLeft {dfAll : List DataRow} {law : List LawRow} {row : CorpusRow}
    (h : row ∈ mergeLeft dfAll law) :
    ∃ d ∈ dfAll, row.itemid = d.itemid ∧
      (row.the_law = none ∨ ∃ l ∈ law, l.itemid = d.itemid ∧ row.the_law = l.the_law) := by
  unfold mergeLeft at h
  rcases List.mem_flatMap.mp h with ⟨d, hd, hrow⟩
  cases hfil : law.filter (fun l => decide (l.itemid = d.itemid)) with
  | nil =>
    rw [hfil] at hrow
    simp only [List.mem_singleton] at hrow
    subst hrow
    exact ⟨d, hd, rfl, Or.inl rfl⟩
  | cons l0 ls =>
    rw [hfil] at hrow
    rcases List.mem_map.mp hrow with ⟨l, hl, rfl⟩
    have hlmem : l ∈ law.filter (fun l => decide (l.itemid = d.itemid)) := by
      rw [hfil]; exact hl
    have hfl := List.mem_filter.mp hlmem
    exact ⟨d, hd, rfl, Or.inr ⟨l, hfl.1, by simpa using hfl.2, rfl⟩⟩

lemma filterLang_some {ds : List CorpusRow} {f : List Char} (hf : f ≠ []) :
    filterLang ds (some f) =
      ds.filter (fun row => decide (lowerL row.languageisocode = lowerL f)) := by
  show (if f = [] then ds
    else ds.filter (fun row => decide (lowerL row.languageisocode = lowerL f))) = _
  rw [if_neg hf]

/-! ### Concrete data used by witnesses and counterexamples -/

/-- A one-row French corpus used by the aggregation witness. -/
def dsC1 : List CorpusRow :=
  [⟨ofStr "1001", ofStr "fre", some (ofStr "la subsistance des familles")⟩]

/-- A one-column French query table with one term. -/
def qtC1 : QueriesTable := ⟨[ofStr "French"], [[some (ofStr "subsistance")]]⟩

/-- An English query table whose term matches nothing in `dsC1`. -/
def qtC9 : QueriesTable := ⟨[ofStr "English"], [[some (ofStr "zzz")]]⟩

/-- A two-language corpus used by the language-filter witness. -/
def dsC8 : List CorpusRow :=
  [⟨ofStr "i1", ofStr "ENG", some (ofStr "a match b")⟩,
   ⟨ofStr "i2", ofStr "fre", some (ofStr "a match b")⟩]

/-- The match record `search_text` produces for the English row of `dsC8`. -/
def msC8 : MatchRecord :=
  ⟨ofStr "i1", ofStr "ENG", ofStr "match", ofStr "a **match** b", ofStr "a match b"⟩

/-- A small full dataset for the assembly witness. -/
def dfC4 : List DataRow := [⟨ofStr "1", ofStr "eng"⟩, ⟨ofStr "2", ofStr "eng"⟩]

/-- A law-text table sharing only identifier "1" with `dfC4`. -/
def lawC4 : List LawRow := [⟨ofStr "1", some (ofStr "t")⟩, ⟨ofStr "3", some (ofStr "u")⟩]

/-- A French corpus row whose text matches the optional-group regex of the
repository's regex test. -/
def rowC3 : CorpusRow := ⟨ofStr "r1", ofStr "fre", some (ofStr "ses moyens de subsistance")⟩

/-! ### Claim C1 -/

/-- C1: after `search_all_queries`, there is exactly one summary record for
every `(itemid, query term)` pair with at least one collected match record;
that record's `match_count` equals the number of match records in the group and
its `combined_context` is the join of the group's non-empty contexts by the
separator. -/
theorem c1_aggregation (ds : List CorpusRow) (qt : QueriesTable) (r : Nat)
    (id q : List Char) (h : ∃ a ∈ collectResults ds qt r, groupKey a = (id, q)) :
    (search_all_queries ds qt r).countP
        (fun s => decide (s.itemid = id ∧ s.query_word = q)) = 1 ∧
    ∀ s ∈ search_all_queries ds qt r, s.itemid = id → s.query_word = q →
      s.match_count = (groupOf (collectResults ds qt r) (id, q)).length ∧
      s.combined_context = joinSep sepBar
        (((groupOf (collectResults ds qt r) (id, q)).map (fun x => x.mrec.context)).filter
          (fun c => decide (c ≠ []))) := by
  have hres : collectResults ds qt r ≠ [] := by
    rcases h with ⟨a, ha, -⟩
    intro he; rw [he] at ha; cases ha
  have hsum : search_all_queries ds qt r =
      (dedupF ((collectResults ds qt r).map groupKey)).map
        (fun k => mkSummary (collectResults ds qt r) k) := by
    unfold search_all_queries
    simp [hres]
  constructor
  · rw [hsum, List.countP_map]
    have hcong : ∀ k ∈ dedupF ((collectResults ds qt r).map groupKey),
        ((fun s => decide (s.itemid = id ∧ s.query_word = q)) ∘
          (fun k => mkSummary (collectResults ds qt r) k)) k = true ↔
          (fun k => decide (k = (id, q))) k = true := by
      intro k _
      simp only [Function.comp_apply, decide_eq_true_eq]
      rcases mkSummary_key (collectResults ds qt r) k with ⟨h1, h2⟩
      rw [h1, h2]
      constructor
      · rintro ⟨ha, hb⟩; exact Prod.ext ha hb
      · rintro rfl; exact ⟨rfl, rfl⟩
    rw [List.countP_congr hcong]
    apply countP_eq_one_of_nodup_mem (nodup_dedupF _)
    rw [mem_dedupF, List.mem_map]
    rcases h with ⟨a, ha, hk⟩
    exact ⟨a, ha, hk⟩
  · intro s hs hid hq
    rw [hsum] at hs
    rcases List.mem_map.mp hs with ⟨k, hkmem, rfl⟩
    rcases mkSummary_key (collectResults ds qt r) k with ⟨h1, h2⟩
    have hk : k = (id, q) := Prod.ext (h1.symm.trans hid) (h2.symm.trans hq)
    subst hk
    exact ⟨mkSummary_count _ _, mkSummary_context _ _⟩

/-- Witness for C1 at a concrete corpus and query table. -/
theorem c1_witness :
    (search_all_queries dsC1 qtC1 3).countP
      (fun s => decide (s.itemid = ofStr "1001" ∧ s.query_word = ofStr "subsistance")) = 1 :=
  (c1_aggregation dsC1 qtC1 3 (ofStr "1001") (ofStr "subsistance") (by decide)).1

/-! ### Claim C2 -/

/-- C2 counterexample: with the two-token term "due process" the word-boundary
pattern matches the text "a due process b", and `get_context` returns a
non-empty string, but that string contains no emphasis marker, refuting the
claim that a match always yields at least one token wrapped in asterisks. -/
theorem c2_counterexample :
    searchLit (lowerL (ofStr "a due process b")) (litOf (ofStr "due process")) = true ∧
    get_context (ofStr "a due process b") (ofStr "due process") 10 ≠ [] ∧
    isSub (ofStr "**") (get_context (ofStr "a due process b") (ofStr "due process") 10) =
      false := by
  decide

/-- C2 amended: `get_context` returns the empty string iff the case-insensitive
word-boundary pattern has no match in the text (so it is non-empty whenever a
match exists); the result contains a token wrapped in the emphasis markers
whenever some token of some occurrence's window itself matches the pattern — a
multi-token term may emphasize nothing. -/
theorem c2_amended_empty_iff_and_marker (text q : List Char) (r : Nat) :
    (get_context text q r = [] ↔ searchLit (lowerL text) (litOf q) = false) ∧
    (∀ p ∈ findMatches (lowerL text) (litOf q), ∀ w ∈ windowAt text r p,
      searchLit (lowerL w) (litOf q) = true →
      isSub (ofStr "**") (get_context text q r) = true) := by
  refine ⟨get_context_empty_iff r, ?_⟩
  intro p hp w hw hsearch
  have hne : findMatches (lowerL text) (litOf q) ≠ [] := by
    intro hnil; rw [hnil] at hp; cases hp
  have hmem1 : emphL w ∈ (windowAt text r p).map (highlightW (litOf q)) :=
    List.mem_map.mpr ⟨w, hw, by simp [highlightW, hsearch]⟩
  rcases joinSep_mem_split [' '] hmem1 with ⟨u, v, hcore⟩
  have hmem2 : occContext text (litOf q) r p ∈
      (findMatches (lowerL text) (litOf q)).map
        (fun pp => occContext text (litOf q) r pp) :=
    List.mem_map.mpr ⟨p, hp, rfl⟩
  rcases joinSep_mem_split sepBar hmem2 with ⟨U, V, hjoin⟩
  rw [isSub_iff]
  refine ⟨U ++ (if 0 < startIdx (wordPosOf text p) r then dots else []) ++ u,
    w ++ ofStr "**" ++ v ++
      (if endIdx (tks text).length (wordPosOf text p) r < (tks text).length then dots
       else []) ++ V, ?_⟩
  rw [get_context_eq r hne, hjoin, occContext_decomp]
  unfold coreAt
  rw [hcore]
  simp [emphL, List.append_assoc]

/-- Witness for C2 at a concrete text, term and radius. -/
theorem c2_witness :
    2 ∈ findMatches (lowerL (ofStr "a match b")) (litOf (ofStr "match")) ∧
    isSub (ofStr "**") (get_context (ofStr "a match b") (ofStr "match") 1) = true :=
  ⟨by decide,
   (c2_amended_empty_iff_and_marker (ofStr "a match b") (ofStr "match") 1).2 2 (by decide)
     (ofStr "match") (by decide) (by decide)⟩

/-! ### Claim C3 -/

/-- C3: the term "(moyens de)? subsistance" read as a regex (optional group
honored) matches the text "ses moyens de subsistance", but `search_text`
literal-escapes the term, so the search of a one-row French corpus carrying
exactly that text returns no match record — the aggregation path does not honor
regex syntax, contradicting the repository's own regex test. -/
theorem c3_escaping_divergence :
    optSeqSearch (lowerL (ofStr "ses moyens de subsistance")) (ofStr "moyens de")
      (ofStr " subsistance") = true ∧
    search_text [rowC3] (ofStr "(moyens de)? subsistance") (some (ofStr "fre")) 10 = [] := by
  decide

/-! ### Claim C4 -/

/-- C4: after corpus assembly every corpus row has a present law-text field,
and any case identifier occurring in the law-text table but not the full
dataset — or in the full dataset but not the law-text table — is excluded from
the corpus. -/
theorem c4_corpus_invariant (dfAll : List DataRow) (law : List LawRow) :
    (∀ row ∈ assembleCorpus dfAll law, row.the_law.isSome = true) ∧
    (∀ id, (∃ l ∈ law, l.itemid = id) → (∀ d ∈ dfAll, d.itemid ≠ id) →
      ∀ row ∈ assembleCorpus dfAll law, row.itemid ≠ id) ∧
    (∀ id, (∃ d ∈ dfAll, d.itemid = id) → (∀ l ∈ law, l.itemid ≠ id) →
      ∀ row ∈ assembleCorpus dfAll law, row.itemid ≠ id) := by
  refine ⟨?_, ?_, ?_⟩
  · intro row hrow
    simpa using (List.mem_filter.mp hrow).2
  · intro id hlaw hdf row hrow heq
    have hmerge := (List.mem_filter.mp hrow).1
    rcases mem_mergeLeft hmerge with ⟨d, hd, he, -⟩
    exact hdf d hd (he.symm.trans heq)
  · intro id hdf hlaw row hrow heq
    have hsome : row.the_law.isSome = true := by
      simpa using (List.mem_filter.mp hrow).2
    have hmerge := (List.mem_filter.mp hrow).1
    rcases mem_mergeLeft hmerge with ⟨d, hd, he, hor⟩
    rcases hor with hnone | ⟨l, hl, hlid, -⟩
    · rw [hnone] at hsome; cases hsome
    · exact hlaw l hl (hlid.trans (he.symm.trans heq))

/-- Witness for C4: identifier "3" (only in the law table) and identifier "2"
(only in the dataset) are excluded from the assembled corpus. -/
theorem c4_witness :
    (assembleCorpus dfC4 lawC4).all (fun row => decide (row.itemid ≠ ofStr "3")) = true ∧
    (assembleCorpus dfC4 lawC4).all (fun row => decide (row.itemid ≠ ofStr "2")) = true := by
  constructor
  · rw [List.all_eq_true]
    intro row hrow
    simpa using (c4_corpus_invariant dfC4 lawC4).2.1 (ofStr "3") (by decide) (by decide)
      row hrow
  · rw [List.all_eq_true]
    intro row hrow
    simpa using (c4_corpus_invariant dfC4 lawC4).2.2 (ofStr "2") (by decide) (by decide)
      row hrow

/-! ### Claim C5 -/

/-- C5 counterexample: in "a b c match d e" the pattern matches at character
position 6, the text before that offset holds three whitespace-delimited
tokens, but the engine's word index is 2, not 3. -/
theorem c5_counterexample :
    6 ∈ findMatches (lowerL (ofStr "a b c match d e")) (litOf (ofStr "match")) ∧
    (tks (List.take 6 (ofStr "a b c match d e"))).length = 3 ∧
    wordPosOf (ofStr "a b c match d e") 6 ≠ 3 := by
  decide

/-- C5 amended: the 0-based word index used to center the context window equals
the number of whitespace-delimited tokens in the text preceding the match's
start offset minus one, clamped to be at least 0. -/
theorem c5_amended_word_index (text : List Char) (p : Nat) :
    (wordPosOf text p : Int) = max ((tks (List.take p text)).length - 1 : Int) 0 := by
  unfold wordPosOf
  omega

/-! ### Claim C6 -/

/-- C6: the context window extends at most `radius` word indices on each side
of the match's word index and is clamped to the word-sequence bounds (the
window slice is fully in range); an ellipsis is attached on the left exactly
when the window does not start at word 0 and on the right exactly when it does
not reach the final word; and for text "a b c match d e", term "match", radius
10, the extractor returns exactly "a b c **match** d e" with no ellipses. -/
theorem c6_window_bounds_and_example :
    (∀ (text : List Char) (r p : Nat),
      wordPosOf text p - startIdx (wordPosOf text p) r ≤ r ∧
      endIdx (tks text).length (wordPosOf text p) r - (wordPosOf text p + 1) ≤ r ∧
      endIdx (tks text).length (wordPosOf text p) r ≤ (tks text).length ∧
      (windowAt text r p).length =
        endIdx (tks text).length (wordPosOf text p) r - startIdx (wordPosOf text p) r) ∧
    (∀ (text L : List Char) (r p : Nat),
      occContext text L r p =
        (if 0 < startIdx (wordPosOf text p) r then dots else []) ++ coreAt text L r p ++
        (if endIdx (tks text).length (wordPosOf text p) r < (tks text).length then dots
         else [])) ∧
    get_context (ofStr "a b c match d e") (ofStr "match") 10 = ofStr "a b c **match** d e" := by
  refine ⟨?_, fun text L r p => occContext_decomp text L r p, by decide⟩
  intro text r p
  unfold windowAt startIdx endIdx
  refine ⟨by omega, by omega, by omega, ?_⟩
  simp only [List.length_take, List.length_drop]
  omega

/-! ### Claim C7 -/

/-- C7: when the word-boundary pattern matches the text n ≥ 2 times,
`get_context` returns the per-occurrence context strings joined by the fixed
separator " | ", the number of joined segments equals n, and every segment is
non-empty. -/
theorem c7_multiple_occurrences (text q : List Char) (r : Nat)
    (h : 2 ≤ (findMatches (lowerL text) (litOf q)).length) :
    get_context text q r =
      joinSep sepBar ((findMatches (lowerL text) (litOf q)).map
        (fun p => occContext text (litOf q) r p)) ∧
    ((findMatches (lowerL text) (litOf q)).map
        (fun p => occContext text (litOf q) r p)).length =
      (findMatches (lowerL text) (litOf q)).length ∧
    ∀ c ∈ (findMatches (lowerL text) (litOf q)).map
        (fun p => occContext text (litOf q) r p), c ≠ [] := by
  have hne : findMatches (lowerL text) (litOf q) ≠ [] := by
    intro hnil; rw [hnil] at h; simp at h
  refine ⟨get_context_eq r hne, by simp, ?_⟩
  intro c hc
  rcases List.mem_map.mp hc with ⟨p, hp, rfl⟩
  exact occContext_ne_nil _ r p (tks_ne_nil_of_findMatches hne)

/-- Witness for C7 at a text containing two occurrences of the term. -/
theorem c7_witness :
    2 ≤ (findMatches (lowerL (ofStr "match a match")) (litOf (ofStr "match"))).length ∧
    get_context (ofStr "match a match") (ofStr "match") 0 =
      joinSep sepBar ((findMatches (lowerL (ofStr "match a match"))
        (litOf (ofStr "match"))).map
        (fun p => occContext (ofStr "match a match") (litOf (ofStr "match")) 0 p)) :=
  ⟨by decide,
   (c7_multiple_occurrences (ofStr "match a match") (ofStr "match") 0 (by decide)).1⟩

/-! ### Claim C8 -/

/-- C8: with a non-empty language filter, every match record emitted by
`search_text` has a language code equal to the filter under case-insensitive
exact comparison. -/
theorem c8_language_filter (ds : List CorpusRow) (q f : List Char) (r : Nat)
    (m : MatchRecord) (hf : f ≠ []) (hm : m ∈ search_text ds q (some f) r) :
    lowerL m.language = lowerL f := by
  unfold search_text at hm
  rw [filterLang_some hf] at hm
  rcases List.mem_filterMap.mp hm with ⟨row, hrow, hsome⟩
  have hlang : lowerL row.languageisocode = lowerL f := by
    simpa using (List.mem_filter.mp hrow).2
  split at hsome
  · cases hsome
  · split at hsome
    · have heq := Option.some.inj hsome
      rw [← heq]
      exact hlang
    · cases hsome

/-- Witness for C8: the filter "eng" against a corpus holding an upper-case
"ENG" row and a "fre" row. -/
theorem c8_witness : lowerL msC8.language = lowerL (ofStr "eng") :=
  c8_language_filter dsC8 (ofStr "match") (ofStr "eng") 2 msC8 (by decide) (by decide)

/-! ### Claim C9 -/

/-- C9: when no match record is produced across the entire query table,
`search_all_queries` returns the empty result set rather than an error. -/
theorem c9_empty_result (ds : List CorpusRow) (qt : QueriesTable) (r : Nat)
    (h : collectResults ds qt r = []) : search_all_queries ds qt r = [] := by
  unfold search_all_queries
  simp [h]

/-- Witness for C9: an English query term absent from the corpus yields the
empty result set. -/
theorem c9_witness : search_all_queries dsC1 qtC9 5 = [] :=
  c9_empty_result dsC1 qtC9 5 (by decide)

/-! ### Claim C10 -/

/-- C10: `search_text` never mutates the searcher's dataset — the state after a
call equals the state before it — and a repeated call with the same arguments
on the resulting state returns the identical match-record sequence. -/
theorem c10_no_mutation (s : TextSearcherState) (q : List Char)
    (lf : Option (List Char)) (r : Nat) :
    (search_text_method s q lf r).1 = s ∧
    (search_text_method s q lf r).2 =
      (search_text_method (search_text_method s q lf r).1 q lf r).2 :=
  ⟨rfl, rfl⟩

end CsvTextSearch
